import Mathlib

/-
  Verification development for the mdtools repository
  (libs/mdchunk/chunking engine, libs/mdtojson tree builder and node model).

  Shallow embedding conventions:
  * Go strings are modelled by Lean `String`; `len` is modelled by
    `String.length` (byte length and character length agree on the ASCII
    fragment exercised here).
  * Go `int` is modelled by `Int`.
  * The insertion-order-preserving map `ordered.OrderedMap` is modelled by an
    association list `List (String × α)` with unique keys maintained by `omSet`.
    Only its `KVIter` is present in the sources; `Set`, `Delete` and the JSON
    marshalling are modelled from the spec (see the doc comments below).
-/

namespace MDTools

/-- Modelled from the spec: `ordered.OrderedMap.Set` is missing from the
sources (only `KVIter` is present).  The spec describes an
insertion-order-preserving key→value mapping, so `Set` replaces the value in
place when the key is present and otherwise appends the pair at the end. -/
def omSet {α : Type} (m : List (String × α)) (k : String) (v : α) :
    List (String × α) :=
  if m.any (fun p => p.1 = k) then
    m.map (fun p => if p.1 = k then (k, v) else p)
  else
    m ++ [(k, v)]

/-- Modelled from the spec: `ordered.OrderedMap.Delete` is missing from the
sources.  It removes the entry with the given key (keys are unique by
construction), keeping the order of the remaining entries. -/
def omDelete {α : Type} (m : List (String × α)) (k : String) :
    List (String × α) :=
  m.filter (fun p => ¬ p.1 = k)

/-- Modelled from the spec: JSON string quoting used by `encoding/json` and by
`fmt.Sprintf("%q", ...)`.  Backslash and double quote are escaped; the inputs
exercised by the claims contain neither. -/
def jsonQuote (s : String) : String :=
  "\"" ++ String.join (s.toList.map (fun c =>
    if c = '\\' then "\\\\" else if c = '"' then "\\\"" else String.singleton c)) ++ "\""

/-- Modelled from the spec: `json.Marshal` of one table row (an `OrderedMap`
from column header to cell text).  The spec gives the row format
`{col: val, ...}` with insertion order preserved; `encoding/json` emits it
without spaces. -/
def marshalRow (r : List (String × String)) : String :=
  "\x7b" ++ String.intercalate ","
    (r.map (fun p => jsonQuote p.1 ++ ":" ++ jsonQuote p.2)) ++ "\x7d"

/-- The `Data` field of a `TableNode` (`interface{}` in Go): either a
positional row list (`[]*ordered.OrderedMap`), a keyed mapping
(`*ordered.OrderedMap` whose values are row maps), or nil (no table body was
encountered).  This is the closed union of the dynamic types the tree builder
actually stores. -/
inductive TableData where
  | positional (rows : List (List (String × String)))
  | keyed (rows : List (String × List (String × String)))
  | noData
deriving DecidableEq, Repr

/-- Modelled from the spec: `json.Marshal(n.Data)`, used by
`TableNode.ToMarkdown`.  Positional data marshals to an array of row objects,
keyed data to an object of row objects, nil to `null`. -/
def marshalData : TableData → String
  | .positional rows =>
      "[" ++ String.intercalate "," (rows.map marshalRow) ++ "]"
  | .keyed rows =>
      "\x7b" ++ String.intercalate ","
        (rows.map (fun p => jsonQuote p.1 ++ ":" ++ marshalRow p.2)) ++ "\x7d"
  | .noData => "null"

/-- `TableNode.toJSONTable` (nodes.go): wraps a JSON payload in the
`:::json_table` fence. -/
def toJSONTable (str : String) : String :=
  ":::json_table\n" ++ str ++ "\n:::\n\n"

/-- One serialized positional row as accumulated by `ChunkTable`
(chunking.go): `string(j) + ",\n"`. -/
def posPart (row : List (String × String)) : String :=
  marshalRow row ++ ",\n"

/-- One serialized keyed row as accumulated by `ChunkTable` (chunking.go):
`fmt.Sprintf("%q: %s,\n", key, string(j))`. -/
def keyedPart (p : String × List (String × String)) : String :=
  jsonQuote p.1 ++ ": " ++ marshalRow p.2 ++ ",\n"

/-- The loop body of `ChunkTable` (chunking.go lines 317-343), generic over
the serialized-row parts and the fragment renderer.  State is
`(chunks, chunk, limit)`; when appending the next part would make `chunk`
exceed the active limit, the accumulated `chunk` is closed as a fragment, the
accumulator is reset and the active limit switches to `nextChunksLimit`. -/
def chunkTableStep (nextChunksLimit : Int) (render : String → String)
    (st : List String × String × Int) (part : String) :
    List String × String × Int :=
  let (chunks, chunk, limit) := st
  if (chunk.length : Int) + (part.length : Int) > limit then
    (chunks ++ [render chunk], part, nextChunksLimit)
  else
    (chunks, chunk ++ part, limit)

/-- `TableNode.ChunkTable(firstChunkLimit, nextChunksLimit)` from chunking.go
lines 312-355: iterates the stored rows in order, accumulates their JSON
serializations, closes fragments at the active limit (wrapping positional data
in `[...]` and keyed data in `{...}` inside the fence), and emits any leftover
accumulated rows as one final fragment. -/
def ChunkTable (data : TableData) (firstChunkLimit nextChunksLimit : Int) :
    List String :=
  match data with
  | .positional rows =>
      let render := fun c => toJSONTable ("[\n" ++ c ++ "]")
      let (chunks, chunk, _) :=
        (rows.map posPart).foldl (chunkTableStep nextChunksLimit render)
          ([], "", firstChunkLimit)
      if chunk.length > 0 then chunks ++ [render chunk] else chunks
  | .keyed rows =>
      let render := fun c => toJSONTable ("\x7b\n" ++ c ++ "\x7d")
      let (chunks, chunk, _) :=
        (rows.map keyedPart).foldl (chunkTableStep nextChunksLimit render)
          ([], "", firstChunkLimit)
      if chunk.length > 0 then chunks ++ [render chunk] else chunks
  | .noData => []

/-- The grouping performed by `ChunkTable`, with the accumulated string kept
as the list of serialized rows it concatenates (the Go accumulator is the
`String.join` of the group).  Used to state row conservation and the group
bounds; `ChunkTable_eq_groups` ties it to `ChunkTable`. -/
def splitGroupsStep (nextChunksLimit : Int)
    (st : List (List String) × List String × Int) (part : String) :
    List (List String) × List String × Int :=
  let (gs, g, limit) := st
  if ((g.map String.length).sum : Int) + (part.length : Int) > limit then
    (gs ++ [g], [part], nextChunksLimit)
  else
    (gs, g ++ [part], limit)

/-- The sequence of row groups `ChunkTable` closes into fragments, in order;
the final leftover group is kept when non-empty. -/
def splitGroups (firstChunkLimit nextChunksLimit : Int) (parts : List String) :
    List (List String) :=
  let (gs, g, _) :=
    parts.foldl (splitGroupsStep nextChunksLimit) ([], [], firstChunkLimit)
  if g ≠ [] then gs ++ [g] else gs

/-- The node model of libs/mdtojson/nodes.go as a closed union.  In Go every
node embeds `BaseNode` (a `Type` string and a `Children` slice); the tree
builder populates children only for headings, paragraphs and `BaseNode`
variants (list, listitem, blockquote, linebreak, softbreak, lineseparator),
which the `base` constructor covers with its literal type tag. -/
inductive JNode where
  | text (s : String)
  | heading (level : Nat) (title : String) (children : List JNode)
  | table (data : TableData)
  | link (url title : String)
  | image (url alt : String) (reference : Nat)
  | code (code : String)
  | codeBlock (language code : String)
  | paragraph (children : List JNode)
  | base (type : String) (children : List JNode)

/-- `GetType` (nodes.go): returns the node's `Type` tag. -/
def JNode.getType : JNode → String
  | .text _ => "text"
  | .heading _ _ _ => "heading"
  | .table _ => "table"
  | .link _ _ => "link"
  | .image _ _ _ => "image"
  | .code _ => "code"
  | .codeBlock _ _ => "codeblock"
  | .paragraph _ => "paragraph"
  | .base t _ => t

/-- `GetChildren` (nodes.go): the `Children` slice.  The tree builder never
sets children on text, table, link, image, code or codeblock nodes, so their
children are empty. -/
def JNode.getChildren : JNode → List JNode
  | .heading _ _ cs => cs
  | .paragraph cs => cs
  | .base _ cs => cs
  | _ => []

/-- `ToMarkdown` (nodes.go): each node's own literal Markdown text, excluding
children.  `BaseNode.ToMarkdown` and `ParagraphNode.ToMarkdown` return the
empty string. -/
def JNode.toMarkdown : JNode → String
  | .text s => s
  | .heading level title _ =>
      String.join (List.replicate level "#") ++ " " ++ title ++ "\n\n"
  | .table d => toJSONTable (marshalData d)
  | .link url title => "[" ++ title ++ "](" ++ url ++ ")\n\n"
  | .image url _ _ => "![Image](" ++ url ++ ")\n"
  | .code c => "`" ++ c ++ "`"
  | .codeBlock language c => "```" ++ language ++ "\n" ++ c ++ "\n```\n\n"
  | .paragraph _ => ""
  | .base _ _ => ""

/-- Modelled from the spec: `ImageNode.ToReference` is missing from the
sources (only its call site in the chunking engine is present).  The spec
describes "a short inline reference token embedding the assigned integer,
distinct from standard image syntax". -/
def ToReference (reference : Nat) : String :=
  "![" ++ toString reference ++ "]\n"

theorem String.sizeOf_pos (s : String) : 0 < sizeOf s := by
  cases s
  simp

theorem JNode.sizeOf_getChildren_lt (n : JNode) :
    sizeOf n.getChildren < sizeOf n := by
  cases n with
  | text s => have := String.sizeOf_pos s; simp [JNode.getChildren] <;> omega
  | heading l t cs => simp [JNode.getChildren] <;> omega
  | table d => have : 0 < sizeOf d := by cases d <;> simp
               simp [JNode.getChildren] <;> omega
  | link u t => have := String.sizeOf_pos u; simp [JNode.getChildren] <;> omega
  | image u a r => have := String.sizeOf_pos u; simp [JNode.getChildren] <;> omega
  | code c => have := String.sizeOf_pos c; simp [JNode.getChildren] <;> omega
  | codeBlock l c => have := String.sizeOf_pos l; simp [JNode.getChildren] <;> omega
  | paragraph cs => simp [JNode.getChildren] <;> omega
  | base t cs => simp [JNode.getChildren] <;> omega

mutual

/-- `ChunkJSONMarkdown(charLimit, markdownData)` (chunking engine,
mdchunk): walks the node sequence left to right keeping an accumulator
`currentChunk` and the emitted `chunks`; any remaining accumulator content is
flushed as the final chunk. -/
def ChunkJSONMarkdown (charLimit : Int) (markdownData : List JNode) :
    List String :=
  let (chunks, currentChunk) := chunkFold charLimit markdownData ([], "")
  if currentChunk.length > 0 then chunks ++ [currentChunk] else chunks
termination_by (sizeOf markdownData, 1)

/-- The `for i := 0; i < len(markdownData); i++` loop of `ChunkJSONMarkdown`,
threading `(chunks, currentChunk)`. -/
def chunkFold (charLimit : Int) (nodes : List JNode)
    (acc : List String × String) : List String × String :=
  match nodes with
  | [] => acc
  | n :: rest => chunkFold charLimit rest (chunkStep charLimit acc n)
termination_by (sizeOf nodes, 0)

/-- One iteration of the `ChunkJSONMarkdown` loop.  Table nodes delegate to
`ChunkTable` (empty fragment lists are skipped; the first fragment is
prepended with the accumulator, middle fragments are flushed, the last
fragment becomes the accumulator).  Image nodes append their reference
placeholder.  Any other node appends its own markdown `section`, recursively
chunks its children with a reduced budget, appends a blank line after a
paragraph, and flushes when the grown accumulator differs from the bare
section and exceeds the limit.  A node whose `Type` says table or image but
whose dynamic type is not the matching concrete node is skipped (the failed
cast path). -/
def chunkStep (charLimit : Int) (acc : List String × String) (n : JNode) :
    List String × String :=
  let (chunks, currentChunk) := acc
  if n.getType = "table" then
    match n with
    | .table data =>
        match ChunkTable data (charLimit - (currentChunk.length : Int))
            charLimit with
        | [] => (chunks, currentChunk)
        | t0 :: trest =>
            let tableChunks := (currentChunk ++ t0) :: trest
            let chunks := chunks ++ tableChunks.dropLast
            let currentChunk := tableChunks.getLastD ""
            if (currentChunk.length : Int) > charLimit then
              (chunks ++ [currentChunk], "")
            else
              (chunks, currentChunk)
    | _ => (chunks, currentChunk)
  else if n.getType = "image" then
    match n with
    | .image _ _ reference =>
        let currentChunk := currentChunk ++ ToReference reference
        if (currentChunk.length : Int) > charLimit then
          (chunks ++ [currentChunk], "")
        else
          (chunks, currentChunk)
    | _ => (chunks, currentChunk)
  else
    let sectionStr := n.toMarkdown
    let currentChunk := currentChunk ++ sectionStr
    let childrenChunks :=
      ChunkJSONMarkdown (charLimit - (sectionStr.length : Int)) n.getChildren
    let (chunks, currentChunk) :=
      childrenChunks.foldl (fun (st : List String × String) child =>
        let (cks, cur) := st
        if (cur.length : Int) + (child.length : Int) > charLimit then
          (cks ++ [cur], sectionStr ++ child)
        else
          (cks, cur ++ child)) (chunks, currentChunk)
    let currentChunk :=
      if n.getType = "paragraph" then currentChunk ++ "\n\n" else currentChunk
    if currentChunk ≠ sectionStr ∧ (currentChunk.length : Int) > charLimit then
      (chunks ++ [currentChunk], sectionStr)
    else
      (chunks, currentChunk)
termination_by (sizeOf n, 2)
decreasing_by
all_goals simp_wf
all_goals first
  | exact Prod.Lex.right _ (by omega)
  | exact Prod.Lex.left _ _ (JNode.sizeOf_getChildren_lt _)
  | exact Prod.Lex.left _ _ (by simp +arith; omega)
  | exact Prod.Lex.left _ _ (by omega)

end

/-- All node-own rendered texts (`ToMarkdown` of every node, recursively)
occurring in a forest.  A chunk "consisting of a single non-splittable atomic
leaf" is a chunk equal to one of these strings. -/
def atomicSections (nodes : List JNode) : List String :=
  match nodes with
  | [] => []
  | n :: rest => n.toMarkdown :: (atomicSections n.getChildren ++ atomicSections rest)
termination_by sizeOf nodes
decreasing_by
all_goals first
  | exact calc sizeOf n.getChildren < sizeOf n := JNode.sizeOf_getChildren_lt n
       _ < sizeOf (n :: rest) := by simp; omega
  | simp
  | (simp; omega)

/-- Replaces a node's children (`SetChildren` of nodes.go) for the node kinds
whose children the tree builder populates; the chunking engine's recursion
hands back the (unmodified) child list of leaf kinds as `[]`, for which this
is the identity. -/
def JNode.withChildren : JNode → List JNode → JNode
  | .heading l t _, cs => .heading l t cs
  | .paragraph _, cs => .paragraph cs
  | .base t _, cs => .base t cs
  | n, _ => n

mutual

/-- State-threading translation of `ChunkJSONMarkdown`: Go passes a slice of
node pointers, so a callee could observe mutations made through them.  This
translation threads the node sequence through every call and returns it next
to the chunk list; since the engine's statements never write to a node, each
returned node is rebuilt from exactly the reads performed. -/
def ChunkJSONMarkdownTr (charLimit : Int) (markdownData : List JNode) :
    List String × List JNode :=
  let ((chunks, currentChunk), nodes') :=
    chunkFoldTr charLimit markdownData ([], "")
  (if currentChunk.length > 0 then chunks ++ [currentChunk] else chunks, nodes')
termination_by (sizeOf markdownData, 1)

/-- The loop of `ChunkJSONMarkdownTr`, returning the threaded node list. -/
def chunkFoldTr (charLimit : Int) (nodes : List JNode)
    (acc : List String × String) : (List String × String) × List JNode :=
  match nodes with
  | [] => (acc, [])
  | n :: rest =>
      let (acc', n') := chunkStepTr charLimit acc n
      let (acc'', rest') := chunkFoldTr charLimit rest acc'
      (acc'', n' :: rest')
termination_by (sizeOf nodes, 0)

/-- One loop iteration of `ChunkJSONMarkdownTr`: identical reads to
`chunkStep`; the node handed back is the input node with its children
replaced by whatever the recursive call returned. -/
def chunkStepTr (charLimit : Int) (acc : List String × String) (n : JNode) :
    (List String × String) × JNode :=
  let (chunks, currentChunk) := acc
  if n.getType = "table" then
    match n with
    | .table data =>
        (match ChunkTable data (charLimit - (currentChunk.length : Int))
            charLimit with
        | [] => (chunks, currentChunk)
        | t0 :: trest =>
            let tableChunks := (currentChunk ++ t0) :: trest
            let chunks := chunks ++ tableChunks.dropLast
            let currentChunk := tableChunks.getLastD ""
            if (currentChunk.length : Int) > charLimit then
              (chunks ++ [currentChunk], "")
            else
              (chunks, currentChunk), n)
    | _ => ((chunks, currentChunk), n)
  else if n.getType = "image" then
    match n with
    | .image _ _ reference =>
        (let currentChunk := currentChunk ++ ToReference reference
        if (currentChunk.length : Int) > charLimit then
          (chunks ++ [currentChunk], "")
        else
          (chunks, currentChunk), n)
    | _ => ((chunks, currentChunk), n)
  else
    let sectionStr := n.toMarkdown
    let currentChunk := currentChunk ++ sectionStr
    let (childrenChunks, children') :=
      ChunkJSONMarkdownTr (charLimit - (sectionStr.length : Int)) n.getChildren
    let (chunks, currentChunk) :=
      childrenChunks.foldl (fun (st : List String × String) child =>
        let (cks, cur) := st
        if (cur.length : Int) + (child.length : Int) > charLimit then
          (cks ++ [cur], sectionStr ++ child)
        else
          (cks, cur ++ child)) (chunks, currentChunk)
    let currentChunk :=
      if n.getType = "paragraph" then currentChunk ++ "\n\n" else currentChunk
    (if currentChunk ≠ sectionStr ∧ (currentChunk.length : Int) > charLimit then
      (chunks ++ [currentChunk], sectionStr)
    else
      (chunks, currentChunk), n.withChildren children')
termination_by (sizeOf n, 2)
decreasing_by
all_goals simp_wf
all_goals first
  | exact Prod.Lex.right _ (by omega)
  | exact Prod.Lex.left _ _ (JNode.sizeOf_getChildren_lt _)
  | exact Prod.Lex.left _ _ (by simp +arith; omega)
  | exact Prod.Lex.left _ _ (by omega)

end

/-- An open heading on the tree builder's header stack (a `*HeadingNode`
whose children are still being collected). -/
structure OpenHeading where
  level : Nat
  title : String
  children : List JNode

/-- The tree builder state of `JSONRenderer` (mdtojson.go): the root-level
`nodes` and the `headerStack`.  The stack is kept top-first (Go appends at the
end and indexes `len-1`; the head of this list is Go's last element).
`currentHeader` is not modelled separately: whenever content arrives it equals
the top of the stack, and the `currentHeader != nil` guard in
`finalizeHeaders` only skips an iteration over an already empty stack. -/
structure BuilderState where
  nodes : List JNode
  headerStack : List OpenHeading

/-- The pop loop of `finalizeHeaders` (mdtojson.go lines 158-169): while the
stack is non-empty and `level <= top.Level`, pop the top heading; if a parent
remains on the stack append the popped heading to the parent's children,
otherwise collect it into `finishedHeaders` (which ends the loop, since the
stack is now empty). -/
def finalizeLoop (level : Nat) (stack : List OpenHeading)
    (finished : List JNode) : List OpenHeading × List JNode :=
  match stack with
  | [] => ([], finished)
  | top :: rest =>
      if level ≤ top.level then
        let fin := JNode.heading top.level top.title top.children
        match rest with
        | parent :: rest' =>
            finalizeLoop level
              ({ parent with children := parent.children ++ [fin] } :: rest')
              finished
        | [] => ([], finished ++ [fin])
      else
        (top :: rest, finished)
termination_by stack.length
decreasing_by simp

/-- `finalizeHeaders(level)` (mdtojson.go lines 153-182): runs the pop loop,
then appends the collected `finishedHeaders` to the new stack top if one
remains, or to the root nodes otherwise. -/
def finalizeHeaders (level : Nat) (st : BuilderState) : BuilderState :=
  let (stack, finished) := finalizeLoop level st.headerStack []
  match stack with
  | parent :: rest =>
      { st with headerStack :=
          { parent with children := parent.children ++ finished } :: rest }
  | [] => { nodes := st.nodes ++ finished, headerStack := [] }

/-- `handleHeader` (mdtojson.go lines 137-150): finalize headers at the new
level, then push the new heading and make it the current insertion point. -/
def handleHeader (level : Nat) (title : String) (st : BuilderState) :
    BuilderState :=
  let st := finalizeHeaders level st
  { st with headerStack := ⟨level, title, []⟩ :: st.headerStack }

/-- One parser callback event consumed by `RenderNode` (mdtojson.go): a
heading enter event (with its level and flattened text), or any other block
that produced a content node. -/
inductive BuildEvent where
  | headingEv (level : Nat) (title : String)
  | contentEv (node : JNode)

/-- The entering branch of `RenderNode` (mdtojson.go lines 31-107): headings
go through `handleHeader`; any produced content node is appended to the
children of the current (deepest open) header, or to the root nodes when no
header is open. -/
def RenderNode (st : BuilderState) (e : BuildEvent) : BuilderState :=
  match e with
  | .headingEv level title => handleHeader level title st
  | .contentEv n =>
      match st.headerStack with
      | top :: rest =>
          { st with headerStack :=
              { top with children := top.children ++ [n] } :: rest }
      | [] => { st with nodes := st.nodes ++ [n] }

/-- `GetNodes` (mdtojson.go lines 128-134) applied after walking the event
stream: finalize all remaining open headers to the root and return the root
nodes. -/
def GetNodes (events : List BuildEvent) : List JNode :=
  (finalizeHeaders 0 (events.foldl RenderNode ⟨[], []⟩)).nodes

/-- The lookup loop of `addImage` (mdtojson.go lines 400-404): scan the
registry in order, returning the 1-based position of the first node with the
same URL. -/
def addImageLoop : List String → String → Nat → Option Nat
  | [], _, _ => none
  | r :: rest, url, i => if r = url then some (i + 1) else addImageLoop rest url (i + 1)

/-- `addImage` (mdtojson.go lines 398-409): return the existing 1-based
reference number when the URL is already registered, otherwise append the
image and return the new registry length.  The registry stores image nodes;
only their URLs are compared and read, so it is modelled by the URL list. -/
def addImage (imageRefs : List String) (url : String) : Nat × List String :=
  match addImageLoop imageRefs url 0 with
  | some ref => (ref, imageRefs)
  | none => (imageRefs.length + 1, imageRefs ++ [url])

/-- The image registrations performed by `extractContent` (mdtojson.go lines
217-223) over a document: each encountered image URL is passed to `addImage`
in document order, collecting the assigned reference numbers and threading
the registry. -/
def processImages : List String → List String → List Nat × List String
  | [], reg => ([], reg)
  | url :: rest, reg =>
      let (ref, reg') := addImage reg url
      let (refs, regF) := processImages rest reg'
      (ref :: refs, regF)

/-- `collectRowCells` (mdtojson.go lines 351-364): walk the row's cells,
assigning each cell text to the next header while headers remain (cells
beyond the known header count are dropped); rows shorter than the header list
simply fill fewer columns. -/
def collectRowCells (headers cells : List String) :
    List (String × String) :=
  (headers.zip cells).foldl (fun m kv => omSet m kv.1 kv.2) []

/-- `collectTableRowsRegular` (mdtojson.go lines 329-348): one row map per
row, then a row entry whose key and value are both empty is treated as
spurious and removed. -/
def collectTableRowsRegular (headers : List String)
    (rows : List (List String)) : List (List (String × String)) :=
  (rows.map (collectRowCells headers)).map
    (fun r => r.filter (fun p => ¬ (p.1 = "" ∧ p.2 = "")))

/-- `collectRowCellsWithKeys` (mdtojson.go lines 380-395): collect the row
cells, then use the first cell's text as the row key and delete the first
header's column from the row map.  A row with no cells keeps Go's zero-value
key `""` and is not modified. -/
def collectRowCellsWithKeys (headers cells : List String) :
    String × List (String × String) :=
  let rowData := collectRowCells headers cells
  match cells with
  | [] => ("", rowData)
  | c0 :: _ => (c0, omDelete rowData (headers.headD ""))

/-- `collectTableRowsWithKeys` (mdtojson.go lines 367-377): set each row
under its key in the insertion-ordered table map. -/
def collectTableRowsWithKeys (headers : List String)
    (rows : List (List String)) : List (String × List (String × String)) :=
  rows.foldl (fun td cells =>
    let (key, row) := collectRowCellsWithKeys headers cells
    omSet td key row) []

/-- `handleTable` (mdtojson.go lines 296-314) given the collected header
texts and the body rows' cell texts: if the first header text is the empty
string build the keyed shape, otherwise the positional shape.  Indexing
`headers[0]` on an empty header list panics in Go, modelled as `none`. -/
def handleTable (headers : List String) (rows : List (List String)) :
    Option TableData :=
  match headers with
  | [] => none
  | h0 :: _ =>
      if h0 = "" then
        some (.keyed (collectTableRowsWithKeys headers rows))
      else
        some (.positional (collectTableRowsRegular headers rows))

/-! ### String helper lemmas -/

theorem strLenPos {s : String} (h : s ≠ "") : 0 < s.length := by
  cases s with
  | mk data =>
    cases data with
    | nil => simp at h
    | cons c cs => simp [String.length]

theorem strNeEmptyOfLenPos {s : String} (h : 0 < s.length) : s ≠ "" := by
  intro he
  rw [he] at h
  simp at h

theorem strAppendNeRight {s t : String} (h : s ≠ "") : s ++ t ≠ t := by
  intro he
  have hlen := congrArg String.length he
  rw [String.length_append] at hlen
  have := strLenPos h
  omega

theorem strAppendNeEmpty {s t : String} (h : t ≠ "") : s ++ t ≠ "" := by
  intro he
  have hlen := congrArg String.length he
  rw [String.length_append, String.length_empty] at hlen
  have := strLenPos h
  omega

/-! ### Basic evaluation lemmas for the chunking engine -/

theorem chunkFold_nil (L : Int) (acc : List String × String) :
    chunkFold L [] acc = acc := by
  rw [chunkFold]

theorem chunkFold_cons (L : Int) (acc : List String × String) (n : JNode)
    (rest : List JNode) :
    chunkFold L (n :: rest) acc = chunkFold L rest (chunkStep L acc n) := by
  rw [chunkFold]

theorem ChunkJSONMarkdown_def (L : Int) (ns : List JNode) :
    ChunkJSONMarkdown L ns =
      (let (chunks, cur) := chunkFold L ns ([], "")
       if cur.length > 0 then chunks ++ [cur] else chunks) := by
  rw [ChunkJSONMarkdown]

theorem chunk_nil (L : Int) : ChunkJSONMarkdown L [] = [] := by
  rw [ChunkJSONMarkdown_def, chunkFold_nil]
  simp

/-- `chunkStep` on a text node: append the node's text; flush afterwards
exactly when the accumulator changed and exceeds the limit. -/
theorem chunkStep_text (L : Int) (cks : List String) (cur a : String) :
    chunkStep L (cks, cur) (.text a) =
      if cur ++ a ≠ a ∧ ((cur ++ a).length : Int) > L then
        (cks ++ [cur ++ a], a)
      else
        (cks, cur ++ a) := by
  rw [chunkStep]
  simp [JNode.getType, JNode.toMarkdown, JNode.getChildren, chunk_nil]
  · intro data h
    exact JNode.noConfusion h
  · intro url alt reference h
    exact JNode.noConfusion h

/-- A single non-empty text node yields exactly the chunk with its text. -/
theorem chunk_single_text (L : Int) (a : String) (ha : a ≠ "") :
    ChunkJSONMarkdown L [.text a] = [a] := by
  rw [ChunkJSONMarkdown_def, chunkFold_cons, chunkStep_text, chunkFold_nil]
  simp [String.empty_append, strLenPos ha]

/-- Two sibling text nodes whose total length exceeds the limit are merged
into one over-limit chunk before any flush: the engine appends a node's text
to the accumulator before checking the budget. -/
theorem chunk_two_texts (L : Int) (a b : String) (ha : a ≠ "") (hb : b ≠ "")
    (hab : (a.length : Int) + (b.length : Int) > L) :
    ChunkJSONMarkdown L [.text a, .text b] = [a ++ b, b] := by
  have hcond : ((a ++ b).length : Int) > L := by
    rw [String.length_append]; push_cast; omega
  rw [ChunkJSONMarkdown_def, chunkFold_cons, chunkStep_text, chunkFold_cons,
    chunkStep_text, chunkFold_nil]
  simp [String.empty_append, strAppendNeRight ha, hcond, strLenPos hb]
  simp [show L < (a.length : Int) + (b.length : Int) from by omega,
    strLenPos hb]

/-- A single paragraph node whose only child's text exceeds the (non-negative)
budget: the still-empty accumulator is flushed as an empty chunk before the
text is appended, then the text plus paragraph separator is flushed. -/
theorem chunk_paragraph_overflow (L : Int) (T : String) (h0 : 0 ≤ L)
    (hT : L < (T.length : Int)) :
    ChunkJSONMarkdown L [.paragraph [.text T]] = ["", T ++ "\n\n"] := by
  have hTpos : 0 < T.length := by omega
  have hTne : T ≠ "" := strNeEmptyOfLenPos hTpos
  have hst : ∀ l, ChunkJSONMarkdown l [JNode.text T] = [T] :=
    fun l => chunk_single_text l T hTne
  have hfin : ((T ++ "\n\n").length : Int) > L := by
    rw [String.length_append]; push_cast
    have : ("\n\n" : String).length = 2 := rfl
    omega
  have hfne : T ++ "\n\n" ≠ "" := strAppendNeEmpty (by decide)
  have hx : L < (T.length : Int) + (("\n\n" : String).length : Int) := by
    have h2 : ("\n\n" : String).length = 2 := rfl
    omega
  rw [ChunkJSONMarkdown_def, chunkFold_cons, chunkFold_nil, chunkStep]
  simp +decide [JNode.getType, JNode.toMarkdown, JNode.getChildren, hst,
    String.empty_append, String.append_empty, hT, hfin, hfne]
  · simp [hx]
  · intro data h
    exact JNode.noConfusion h
  · intro url alt reference h
    exact JNode.noConfusion h

/-- `chunkStep` on any childless node that is neither a table nor an image:
append the node's own text (plus the paragraph separator when applicable),
then flush exactly when the accumulator changed and exceeds the limit. -/
theorem chunkStep_leaf (L : Int) (cks : List String) (cur : String)
    (n : JNode) (h1 : n.getChildren = []) (h2 : n.getType ≠ "table")
    (h3 : n.getType ≠ "image") :
    chunkStep L (cks, cur) n =
      (let s := n.toMarkdown
       let cur1 :=
         if n.getType = "paragraph" then (cur ++ s) ++ "\n\n" else cur ++ s
       if cur1 ≠ s ∧ (cur1.length : Int) > L then (cks ++ [cur1], s)
       else (cks, cur1)) := by
  rw [chunkStep]
  simp only [if_neg h2, if_neg h3, h1, chunk_nil, List.foldl_nil]
  · intro data hdata
    subst hdata
    exact h2 rfl
  · intro url alt reference hdata
    subst hdata
    exact h3 rfl

/-! ### C2 / C10 helper scenarios -/

/-- C2 (amended): a single paragraph whose (non-empty) text exceeds a
non-negative `charLimit` yields exactly two chunks — an empty chunk flushed
from the still-empty accumulator, then one chunk carrying the paragraph's
full text untruncated followed by the paragraph separator; nothing fails. -/
theorem small_budget_two_chunks (L : Int) (T : String) (h0 : 0 ≤ L)
    (hT : L < (T.length : Int)) :
    ChunkJSONMarkdown L [.paragraph [.text T]] = ["", T ++ "\n\n"] :=
  chunk_paragraph_overflow L T h0 hT

/-- Witness for `small_budget_two_chunks` at `charLimit 5`, text "123456". -/
theorem small_budget_two_chunks_witness :
    (0 : Int) ≤ 5 ∧ (5 : Int) < (("123456" : String).length : Int) ∧
    ChunkJSONMarkdown 5 [.paragraph [.text "123456"]] = ["", "123456" ++ "\n\n"] :=
  ⟨by decide, by decide,
   small_budget_two_chunks 5 "123456" (by decide) (by decide)⟩

/-- C2 counterexample: at `charLimit 5` the single paragraph "123456"
produces two chunks (the first empty), not exactly one. -/
theorem small_budget_single_chunk_cex :
    ChunkJSONMarkdown 5 [.paragraph [.text "123456"]] = ["", "123456\n\n"] ∧
    (ChunkJSONMarkdown 5 [.paragraph [.text "123456"]]).length ≠ 1 := by
  have h := chunk_paragraph_overflow 5 "123456" (by decide) (by decide)
  rw [h]
  exact ⟨rfl, by decide⟩

/-- C10: the engine can emit an empty-string chunk: a paragraph (own text
empty) whose child chunk exceeds the limit flushes the still-empty
accumulator first. -/
theorem empty_chunk_emitted :
    "" ∈ ChunkJSONMarkdown 3 [.paragraph [.text "abcde"]] := by
  have h := chunk_paragraph_overflow 3 "abcde" (by decide) (by decide)
  rw [h]
  simp

/-! ### C1: budget respect -/

/-- C1 counterexample: with `charLimit 10`, two sibling texts of length 9 are
merged into one 18-character chunk; that chunk exceeds the limit yet is not
(and does not even contain) a single atomic leaf exceeding the limit, since
both leaf texts are within budget. -/
theorem budget_respect_cex :
    ChunkJSONMarkdown 10 [.text "123456789", .text "abcdefghi"] =
      ["123456789abcdefghi", "abcdefghi"] ∧
    ¬ (∀ c ∈ ChunkJSONMarkdown 10 [.text "123456789", .text "abcdefghi"],
        (c.length : Int) ≤ 10 ∨
          c ∈ atomicSections [.text "123456789", .text "abcdefghi"]) := by
  have happ : ("123456789" ++ "abcdefghi" : String) = "123456789abcdefghi" := rfl
  have h := chunk_two_texts 10 "123456789" "abcdefghi" (by decide) (by decide)
    (by decide)
  rw [happ] at h
  have hatomic :
      atomicSections [JNode.text "123456789", JNode.text "abcdefghi"] =
        ["123456789", "abcdefghi"] := by
    rw [atomicSections, atomicSections, atomicSections]
    simp [JNode.toMarkdown, JNode.getChildren, atomicSections]
  refine ⟨h, fun hall => ?_⟩
  have hc := hall "123456789abcdefghi" (by rw [h]; simp)
  rw [hatomic] at hc
  rcases hc with hlen | hmem
  · rw [show ("123456789abcdefghi" : String).length = 18 from rfl] at hlen
    omega
  · revert hmem
    decide

/-- C1 (amended): the engine checks the budget only after appending, so
chunks can exceed `charLimit` even when every atomic leaf fits (see the
counterexample).  What holds for sequences of childless non-table non-image
nodes is the overflow bound: with every node's own text of length at most M,
every chunk is at most `max charLimit M + M + 2` long — at most one more
node text (plus a paragraph separator) past the limit or past one oversized
leaf. -/
theorem budget_respect_leaf_bound (L M : Int) (ns : List JNode)
    (hM0 : 0 ≤ M)
    (hleaf : ∀ n ∈ ns,
      n.getChildren = [] ∧ n.getType ≠ "table" ∧ n.getType ≠ "image")
    (hM : ∀ n ∈ ns, (n.toMarkdown.length : Int) ≤ M) :
    ∀ c ∈ ChunkJSONMarkdown L ns, (c.length : Int) ≤ max L M + M + 2 := by
  have main : ∀ (ns' : List JNode), (∀ n ∈ ns',
        n.getChildren = [] ∧ n.getType ≠ "table" ∧ n.getType ≠ "image") →
      (∀ n ∈ ns', (n.toMarkdown.length : Int) ≤ M) →
      ∀ (cks : List String) (cur : String),
        (cur.length : Int) ≤ max L M →
        (∀ c ∈ cks, (c.length : Int) ≤ max L M + M + 2) →
        ((chunkFold L ns' (cks, cur)).2.length : Int) ≤ max L M ∧
        ∀ c ∈ (chunkFold L ns' (cks, cur)).1,
          (c.length : Int) ≤ max L M + M + 2 := by
    intro ns'
    induction ns' with
    | nil =>
        intro _ _ cks cur hcur hcks
        rw [chunkFold_nil]
        exact ⟨hcur, hcks⟩
    | cons n rest ih =>
        intro hlf hm cks cur hcur hcks
        obtain ⟨hn1, hn2, hn3⟩ := hlf n (by simp)
        have hsec : ((n.toMarkdown).length : Int) ≤ M := hm n (by simp)
        rw [chunkFold_cons, chunkStep_leaf L cks cur n hn1 hn2 hn3]
        simp only []
        set s := n.toMarkdown with hs
        set cur1 :=
          if n.getType = "paragraph" then (cur ++ s) ++ "\n\n" else cur ++ s
          with hcur1
        have hcur1len : (cur1.length : Int) ≤ (cur.length : Int) + M + 2 := by
          rw [hcur1]
          by_cases hp : n.getType = "paragraph"
          · rw [if_pos hp, String.length_append, String.length_append]
            have : ("\n\n" : String).length = 2 := rfl
            push_cast
            omega
          · rw [if_neg hp, String.length_append]
            push_cast
            omega
        by_cases hflush : cur1 ≠ s ∧ (cur1.length : Int) > L
        · rw [if_pos hflush]
          refine ih (fun x hx => hlf x (by simp [hx]))
            (fun x hx => hm x (by simp [hx])) _ _ ?_ ?_
          · calc (s.length : Int) ≤ M := hsec
              _ ≤ max L M := le_max_right L M
          · intro c hc
            rcases List.mem_append.mp hc with hc | hc
            · exact hcks c hc
            · rcases List.mem_singleton.mp hc with rfl
              omega
        · rw [if_neg hflush]
          refine ih (fun x hx => hlf x (by simp [hx]))
            (fun x hx => hm x (by simp [hx])) _ _ ?_ hcks
          rcases not_and_or.mp hflush with hne | hlen
          · have : cur1 = s := not_not.mp hne
            rw [this]
            calc (s.length : Int) ≤ M := hsec
              _ ≤ max L M := le_max_right L M
          · have : (cur1.length : Int) ≤ L := by omega
            calc (cur1.length : Int) ≤ L := this
              _ ≤ max L M := le_max_left L M
  intro c hc
  rw [ChunkJSONMarkdown_def] at hc
  have h0 : ((0 : Nat) : Int) ≤ max L M := by
    have := le_max_right L M
    push_cast
    omega
  obtain ⟨hlast, hall⟩ := main ns hleaf hM [] ""
    (by simpa using h0) (by simp)
  by_cases hl : 0 < (chunkFold L ns ([], "")).2.length
  · simp only [hl, if_pos] at hc
    rcases (by simpa using hc :
        c ∈ (chunkFold L ns ([], "")).1 ∨ c = (chunkFold L ns ([], "")).2)
      with hc' | hc'
    · exact hall c hc'
    · rw [hc']
      omega
  · simp only [hl, if_neg] at hc
    exact hall c (by simpa using hc)

/-- Witness for `budget_respect_leaf_bound` at `charLimit 3`, `M = 2`, the
single text node "ab". -/
theorem budget_respect_leaf_bound_witness :
    (("ab" : String).length : Int) ≤ max 3 2 + 2 + 2 :=
  budget_respect_leaf_bound 3 2 [.text "ab"] (by decide)
    (by intro n hn; rcases List.mem_singleton.mp hn with rfl;
        exact ⟨rfl, by decide, by decide⟩)
    (by intro n hn; rcases List.mem_singleton.mp hn with rfl; decide)
    "ab"
    (by rw [chunk_single_text 3 "ab" (by decide)]; simp)

/-! ### C3: heading nesting -/

/-- C3: parsing `"# A\n\ntext1\n\n## B\n\ntext2\n\n# C\n\ntext3"` yields the
event stream below; the tree builder produces exactly the two top-level
headings A and C, with text1 before B among A's children, text2 under B and
text3 under C. -/
theorem heading_nesting_AC :
    GetNodes
      [.headingEv 1 "A", .contentEv (.paragraph [.text "text1"]),
       .headingEv 2 "B", .contentEv (.paragraph [.text "text2"]),
       .headingEv 1 "C", .contentEv (.paragraph [.text "text3"])] =
      [JNode.heading 1 "A"
         [.paragraph [.text "text1"],
          .heading 2 "B" [.paragraph [.text "text2"]]],
       JNode.heading 1 "C" [.paragraph [.text "text3"]]] := by
  simp +decide [GetNodes, RenderNode, handleHeader, finalizeHeaders,
    finalizeLoop]

/-! ### C8: empty table -/

/-- C8: a table with headers but zero body rows (either shape the builder can
produce) yields zero fragments from `ChunkTable`, and the engine's table
branch leaves the accumulator and emitted chunks unchanged and moves on. -/
theorem emptyTable_zero_fragments (h0 : String) (hs : List String)
    (f nx cl : Int) (cks : List String) (cur : String) :
    ∃ d, handleTable (h0 :: hs) [] = some d ∧
      ChunkTable d f nx = [] ∧
      chunkStep cl (cks, cur) (.table d) = (cks, cur) := by
  by_cases h : h0 = ""
  · refine ⟨.keyed [], ?_, ?_, ?_⟩
    · simp [handleTable, h, collectTableRowsWithKeys]
    · simp [ChunkTable]
    · rw [chunkStep]
      simp [JNode.getType, ChunkTable]
  · refine ⟨.positional [], ?_, ?_, ?_⟩
    · simp [handleTable, h, collectTableRowsRegular]
    · simp [ChunkTable]
    · rw [chunkStep]
      simp [JNode.getType, ChunkTable]

/-! ### Table splitter lemmas (C4, C6) -/

/-- Sum of the lengths of a group of serialized rows (the length of the Go
string accumulator holding their concatenation). -/
def sumLen (g : List String) : Int :=
  ((g.map String.length).sum : Int)

theorem sumLen_nil : sumLen [] = 0 := rfl

theorem sumLen_append_singleton (g : List String) (p : String) :
    sumLen (g ++ [p]) = sumLen g + (p.length : Int) := by
  simp [sumLen]

theorem sumLen_singleton (p : String) : sumLen [p] = (p.length : Int) := by
  simp [sumLen]

theorem strFoldlAppend (rest : List String) :
    ∀ a : String, rest.foldl (· ++ ·) a = a ++ rest.foldl (· ++ ·) "" := by
  induction rest with
  | nil => intro a; simp [String.append_empty]
  | cons q qs ih =>
      intro a
      rw [List.foldl_cons, List.foldl_cons, ih (a ++ q), ih ("" ++ q),
        String.empty_append, String.append_assoc]

theorem strJoin_cons (p : String) (rest : List String) :
    String.join (p :: rest) = p ++ String.join rest := by
  show (p :: rest).foldl (· ++ ·) "" = p ++ rest.foldl (· ++ ·) ""
  rw [List.foldl_cons, String.empty_append, strFoldlAppend]

theorem strJoin_length_nat (g : List String) :
    (String.join g).length = (g.map String.length).sum := by
  induction g with
  | nil => simp [String.join]
  | cons p rest ih =>
      rw [strJoin_cons, String.length_append, ih]
      simp

theorem strJoin_length (g : List String) :
    ((String.join g).length : Int) = sumLen g := by
  rw [strJoin_length_nat, sumLen]

theorem strJoin_append_singleton (g : List String) (p : String) :
    String.join (g ++ [p]) = String.join g ++ p := by
  show (g ++ [p]).foldl (· ++ ·) "" = g.foldl (· ++ ·) "" ++ p
  rw [List.foldl_append]
  simp

/-- The fold of `ChunkTable` is the rendering of the fold of `splitGroups`:
the Go accumulator string is the concatenation of the accumulated group and
each emitted fragment is the rendered closed group. -/
theorem chunkTableStep_fold_eq (nx : Int) (render : String → String) :
    ∀ (parts : List String) (gs : List (List String)) (g : List String)
      (lim : Int),
      parts.foldl (chunkTableStep nx render)
          (gs.map (fun h => render (String.join h)), String.join g, lim) =
        ((parts.foldl (splitGroupsStep nx) (gs, g, lim)).1.map
            (fun h => render (String.join h)),
          String.join (parts.foldl (splitGroupsStep nx) (gs, g, lim)).2.1,
          (parts.foldl (splitGroupsStep nx) (gs, g, lim)).2.2) := by
  intro parts
  induction parts with
  | nil => intro gs g lim; simp
  | cons p rest ih =>
      intro gs g lim
      rw [List.foldl_cons, List.foldl_cons]
      rw [chunkTableStep, splitGroupsStep]
      simp only [strJoin_length]
      by_cases hc : sumLen g + (p.length : Int) > lim
      · rw [if_pos hc, if_pos (by simpa [sumLen] using hc)]
        have h1 : (gs.map (fun h => render (String.join h))) ++
              [render (String.join g)] =
            (gs ++ [g]).map (fun h => render (String.join h)) := by
          simp
        have h2 : (p : String) = String.join [p] := by
          rw [strJoin_cons]
          simp [String.append_empty, String.join]
        rw [h1, h2]
        exact ih (gs ++ [g]) [p] nx
      · rw [if_neg hc, if_neg (by simpa [sumLen] using hc)]
        rw [← strJoin_append_singleton]
        exact ih gs (g ++ [p]) lim

/-- Elements of the accumulated group come from the initial group or the
parts. -/
theorem splitGroups_fold_group_mem (nx : Int) :
    ∀ (parts : List String) (gs : List (List String)) (g : List String)
      (lim : Int) (q : String),
      q ∈ (parts.foldl (splitGroupsStep nx) (gs, g, lim)).2.1 →
      q ∈ g ∨ q ∈ parts := by
  intro parts
  induction parts with
  | nil =>
      intro gs g lim q hq
      rw [List.foldl_nil] at hq
      exact Or.inl hq
  | cons p rest ih =>
      intro gs g lim q hq
      rw [List.foldl_cons, splitGroupsStep] at hq
      by_cases hc : sumLen g + (p.length : Int) > lim
      · rw [if_pos (by simpa [sumLen] using hc)] at hq
        rcases ih _ _ _ q hq with hg | hp
        · rcases List.mem_singleton.mp hg with rfl
          exact Or.inr (by simp)
        · exact Or.inr (by simp [hp])
      · rw [if_neg (by simpa [sumLen] using hc)] at hq
        rcases ih _ _ _ q hq with hg | hp
        · rcases List.mem_append.mp hg with hg | hg
          · exact Or.inl hg
          · rcases List.mem_singleton.mp hg with rfl
            exact Or.inr (by simp)
        · exact Or.inr (by simp [hp])

/-- The leftover group, when non-empty, consists of non-empty parts and so
has a concatenation of positive length. -/
theorem splitGroups_leftover_pos (nx : Int) (parts : List String)
    (gs : List (List String)) (g : List String) (lim f : Int)
    (hne : ∀ p ∈ parts, p ≠ "")
    (hfold : parts.foldl (splitGroupsStep nx) ([], [], f) = (gs, g, lim))
    (hg : g ≠ []) : 0 < (String.join g).length := by
  rcases List.exists_mem_of_ne_nil _ hg with ⟨q, hq⟩
  have hqmem : q ∈ (parts.foldl (splitGroupsStep nx) ([], [], f)).2.1 := by
    rw [hfold]; exact hq
  have hqne : q ≠ "" := by
    rcases splitGroups_fold_group_mem nx parts [] [] f q hqmem with h' | h'
    · simp at h'
    · exact hne q h'
  have h1 : 0 < q.length := strLenPos hqne
  have h2 : q.length ≤ (g.map String.length).sum :=
    List.single_le_sum (by simp) _ (List.mem_map.mpr ⟨q, hq, rfl⟩)
  rw [strJoin_length_nat]
  omega

/-- `ChunkTable` on positional data renders exactly the groups computed by
`splitGroups` over the serialized rows. -/
theorem ChunkTable_positional_eq_groups (f nx : Int)
    (rows : List (List (String × String))) :
    ChunkTable (.positional rows) f nx =
      (splitGroups f nx (rows.map posPart)).map
        (fun g => toJSONTable ("[\n" ++ String.join g ++ "]")) := by
  have hne : ∀ p ∈ rows.map posPart, p ≠ "" := by
    intro p hp
    rcases List.mem_map.mp hp with ⟨r, _, rfl⟩
    exact strAppendNeEmpty (by decide)
  rcases hfold : (rows.map posPart).foldl (splitGroupsStep nx) ([], [], f)
    with ⟨gs, g, lim⟩
  have h := chunkTableStep_fold_eq nx
    (fun c => toJSONTable ("[\n" ++ c ++ "]")) (rows.map posPart) [] [] f
  rw [hfold] at h
  simp only [List.map_nil] at h
  have h' : (rows.map posPart).foldl
      (chunkTableStep nx (fun c => toJSONTable ("[\n" ++ c ++ "]")))
      ([], "", f) =
      (gs.map (fun h => toJSONTable ("[\n" ++ String.join h ++ "]")),
        String.join g, lim) := by
    rw [show ("" : String) = String.join [] from rfl]
    exact h
  rw [ChunkTable, h', splitGroups, hfold]
  by_cases hg : g = []
  · subst hg
    simp [String.join]
  · have hpos := splitGroups_leftover_pos nx (rows.map posPart) gs g lim f
      hne hfold hg
    simp only [hg, hpos]
    simp [hg, hpos]

/-- `ChunkTable` on keyed data renders exactly the groups computed by
`splitGroups` over the serialized keyed rows. -/
theorem ChunkTable_keyed_eq_groups (f nx : Int)
    (krows : List (String × List (String × String))) :
    ChunkTable (.keyed krows) f nx =
      (splitGroups f nx (krows.map keyedPart)).map
        (fun g => toJSONTable ("\x7b\n" ++ String.join g ++ "\x7d")) := by
  have hne : ∀ p ∈ krows.map keyedPart, p ≠ "" := by
    intro p hp
    rcases List.mem_map.mp hp with ⟨r, _, rfl⟩
    exact strAppendNeEmpty (by decide)
  rcases hfold : (krows.map keyedPart).foldl (splitGroupsStep nx) ([], [], f)
    with ⟨gs, g, lim⟩
  have h := chunkTableStep_fold_eq nx
    (fun c => toJSONTable ("\x7b\n" ++ c ++ "\x7d")) (krows.map keyedPart) [] [] f
  rw [hfold] at h
  simp only [List.map_nil] at h
  have h' : (krows.map keyedPart).foldl
      (chunkTableStep nx (fun c => toJSONTable ("\x7b\n" ++ c ++ "\x7d")))
      ([], "", f) =
      (gs.map (fun h => toJSONTable ("\x7b\n" ++ String.join h ++ "\x7d")),
        String.join g, lim) := by
    rw [show ("" : String) = String.join [] from rfl]
    exact h
  rw [ChunkTable, h', splitGroups, hfold]
  by_cases hg : g = []
  · subst hg
    simp [String.join]
  · have hpos := splitGroups_leftover_pos nx (krows.map keyedPart) gs g lim f
      hne hfold hg
    simp only [hg, hpos]
    simp [hg, hpos]

/-- The groups' concatenation reproduces all parts in order. -/
theorem splitGroups_join (f nx : Int) (parts : List String) :
    (splitGroups f nx parts).join = parts := by
  have main : ∀ (ps : List String) (gs : List (List String))
      (g : List String) (lim : Int),
      (ps.foldl (splitGroupsStep nx) (gs, g, lim)).1.join ++
          (ps.foldl (splitGroupsStep nx) (gs, g, lim)).2.1 =
        gs.join ++ g ++ ps := by
    intro ps
    induction ps with
    | nil => intro gs g lim; simp
    | cons p rest ih =>
        intro gs g lim
        rw [List.foldl_cons, splitGroupsStep]
        by_cases hc : sumLen g + (p.length : Int) > lim
        · rw [if_pos (by simpa [sumLen] using hc)]
          rw [ih]
          simp
        · rw [if_neg (by simpa [sumLen] using hc)]
          rw [ih]
          simp
  rcases hfold : parts.foldl (splitGroupsStep nx) ([], [], f)
    with ⟨gs, g, lim⟩
  have hm := main parts [] [] f
  rw [hfold] at hm
  simp only [List.join_nil, List.nil_append] at hm
  rw [splitGroups, hfold]
  by_cases hg : g = []
  · subst hg
    simp only [ne_eq, not_true_eq_false, if_false]
    simpa using hm
  · simp only [ne_eq, hg, not_false_eq_true, if_true]
    simpa using hm

/-- C4: table row conservation.  The fragments `ChunkTable` returns are the
fence-wrapped renderings of consecutive groups of the serialized rows, and
the concatenation of those groups is exactly the serialized-row list of the
stored table — every row appears in exactly one fragment and the original
order is preserved, for both the positional and the keyed shape. -/
theorem table_row_conservation (f nx : Int)
    (rows : List (List (String × String)))
    (krows : List (String × List (String × String))) :
    ChunkTable (.positional rows) f nx =
      (splitGroups f nx (rows.map posPart)).map
        (fun g => toJSONTable ("[\n" ++ String.join g ++ "]")) ∧
    (splitGroups f nx (rows.map posPart)).join = rows.map posPart ∧
    ChunkTable (.keyed krows) f nx =
      (splitGroups f nx (krows.map keyedPart)).map
        (fun g => toJSONTable ("\x7b\n" ++ String.join g ++ "\x7d")) ∧
    (splitGroups f nx (krows.map keyedPart)).join = krows.map keyedPart :=
  ⟨ChunkTable_positional_eq_groups f nx rows, splitGroups_join f nx _,
   ChunkTable_keyed_eq_groups f nx krows, splitGroups_join f nx _⟩

theorem headD_append_of_ne_nil (gs : List (List String)) (g : List String)
    (h : gs ≠ []) : (gs ++ [g]).head? = gs.head? := by
  cases gs with
  | nil => exact absurd rfl h
  | cons a rest => rfl

theorem tail_append_of_ne_nil (gs : List (List String)) (g : List String)
    (h : gs ≠ []) : (gs ++ [g]).tail = gs.tail ++ [g] := by
  cases gs with
  | nil => exact absurd rfl h
  | cons a rest => rfl

/-- Group bounds for `splitGroups`: the first closed group is within
`firstChunkLimit` or empty; later groups are within `nextChunksLimit` unless
they consist of a single (oversized) serialized row. -/
theorem splitGroups_bounds (f nx : Int) (parts : List String) :
    (∀ g0, (splitGroups f nx parts).head? = some g0 →
      sumLen g0 ≤ f ∨ g0 = []) ∧
    (∀ g ∈ (splitGroups f nx parts).tail,
      sumLen g ≤ nx ∨ ∃ p, g = [p]) := by
  have main : ∀ (ps : List String) (gs : List (List String))
      (g : List String) (lim : Int),
      ((gs = [] ∧ lim = f ∧ (sumLen g ≤ f ∨ g = [])) ∨
       (gs ≠ [] ∧ lim = nx ∧
         (∀ g0, gs.head? = some g0 → sumLen g0 ≤ f ∨ g0 = []) ∧
         (∀ h ∈ gs.tail, sumLen h ≤ nx ∨ ∃ p, h = [p]) ∧
         (sumLen g ≤ nx ∨ ∃ p, g = [p]))) →
      (∀ g0, ((fun st : List (List String) × List String × Int =>
            if st.2.1 ≠ [] then st.1 ++ [st.2.1] else st.1)
          (ps.foldl (splitGroupsStep nx) (gs, g, lim))).head? = some g0 →
        sumLen g0 ≤ f ∨ g0 = []) ∧
      (∀ h ∈ ((fun st : List (List String) × List String × Int =>
            if st.2.1 ≠ [] then st.1 ++ [st.2.1] else st.1)
          (ps.foldl (splitGroupsStep nx) (gs, g, lim))).tail,
        sumLen h ≤ nx ∨ ∃ p, h = [p]) := by
    intro ps
    induction ps with
    | nil =>
        intro gs g lim hinv
        rw [List.foldl_nil]
        rcases hinv with ⟨hgs, _, hg⟩ | ⟨hgs, _, hhead, htail, hg⟩
        · subst hgs
          by_cases hge : g = []
          · subst hge
            simp
          · simp only [ne_eq, hge, not_false_eq_true, if_true]
            constructor
            · intro g0 h0
              simp at h0
              subst h0
              exact hg.imp_right (fun h => h)
            · intro h hh
              simp at hh
        · by_cases hge : g = []
          · simp only [ne_eq, hge, not_true_eq_false, if_false]
            exact ⟨hhead, htail⟩
          · simp only [ne_eq, hge, not_false_eq_true, if_true]
            constructor
            · intro g0 h0
              rw [headD_append_of_ne_nil gs g hgs] at h0
              exact hhead g0 h0
            · intro h hh
              rw [tail_append_of_ne_nil gs g hgs] at hh
              rcases List.mem_append.mp hh with hh | hh
              · exact htail h hh
              · rcases List.mem_singleton.mp hh with rfl
                exact hg
    | cons p rest ih =>
        intro gs g lim hinv
        rw [List.foldl_cons, splitGroupsStep]
        rcases hinv with ⟨hgs, hlim, hg⟩ | ⟨hgs, hlim, hhead, htail, hg⟩
        · subst hgs
          rw [hlim]
          by_cases hc : sumLen g + (p.length : Int) > f
          · rw [if_pos (by simpa [sumLen] using hc)]
            refine ih [g] [p] nx (Or.inr ⟨by simp, rfl, ?_, ?_, ?_⟩)
            · intro g0 h0
              simp at h0
              subst h0
              exact hg
            · intro h hh
              simp at hh
            · exact Or.inr ⟨p, rfl⟩
          · rw [if_neg (by simpa [sumLen] using hc)]
            refine ih [] (g ++ [p]) f (Or.inl ⟨rfl, rfl, Or.inl ?_⟩)
            rw [sumLen_append_singleton]
            omega
        · rw [hlim]
          by_cases hc : sumLen g + (p.length : Int) > nx
          · rw [if_pos (by simpa [sumLen] using hc)]
            refine ih (gs ++ [g]) [p] nx (Or.inr ⟨by simp, rfl, ?_, ?_, ?_⟩)
            · intro g0 h0
              rw [headD_append_of_ne_nil gs g hgs] at h0
              exact hhead g0 h0
            · intro h hh
              rw [tail_append_of_ne_nil gs g hgs] at hh
              rcases List.mem_append.mp hh with hh | hh
              · exact htail h hh
              · rcases List.mem_singleton.mp hh with rfl
                exact hg
            · exact Or.inr ⟨p, rfl⟩
          · rw [if_neg (by simpa [sumLen] using hc)]
            refine ih gs (g ++ [p]) nx (Or.inr ⟨hgs, rfl, hhead, htail,
              Or.inl ?_⟩)
            rw [sumLen_append_singleton]
            omega
  have h := main parts [] [] f (Or.inl ⟨rfl, rfl, Or.inr rfl⟩)
  rcases hfold : parts.foldl (splitGroupsStep nx) ([], [], f)
    with ⟨gs, g, lim⟩
  rw [hfold] at h
  rw [splitGroups, hfold]
  exact h

/-- C6 counterexample: with `firstChunkLimit = nextChunksLimit = 1` and the
single row `("a","b")`, the first fragment closes with zero rows and the
second (subsequent) group is the single serialized row, of length 11, which
exceeds `nextChunksLimit` — so subsequent groups are not bounded by
`nextChunksLimit`. -/
theorem table_fragment_limits_cex :
    ChunkTable (.positional [[("a", "b")]]) 1 1 =
      [toJSONTable ("[\n]"),
       toJSONTable ("[\n" ++ posPart [("a", "b")] ++ "]")] ∧
    splitGroups 1 1 [posPart [("a", "b")]] = [[], [posPart [("a", "b")]]] ∧
    sumLen [posPart [("a", "b")]] > 1 := by
  refine ⟨rfl, rfl, ?_⟩
  rw [sumLen_singleton, show (posPart [("a", "b")]).length = 11 from rfl]
  decide

/-- C6 (amended): the fragments of `ChunkTable` are the rendered groups of
`splitGroups` (flush when the next serialized row would exceed the active
limit, reset the accumulator, switch to `nextChunksLimit`; leftover rows form
the final fragment).  The first group is bounded by `firstChunkLimit` unless
it is closed empty (first row alone over the limit); every subsequent group
is bounded by `nextChunksLimit` unless it consists of a single serialized
row, which may alone exceed that limit. -/
theorem table_fragment_limits (f nx : Int) :
    (∀ parts : List String,
      (∀ g0, (splitGroups f nx parts).head? = some g0 →
        sumLen g0 ≤ f ∨ g0 = []) ∧
      (∀ g ∈ (splitGroups f nx parts).tail,
        sumLen g ≤ nx ∨ ∃ p, g = [p])) ∧
    (∀ rows, ChunkTable (.positional rows) f nx =
      (splitGroups f nx (rows.map posPart)).map
        (fun g => toJSONTable ("[\n" ++ String.join g ++ "]"))) ∧
    (∀ krows, ChunkTable (.keyed krows) f nx =
      (splitGroups f nx (krows.map keyedPart)).map
        (fun g => toJSONTable ("\x7b\n" ++ String.join g ++ "\x7d"))) :=
  ⟨fun parts => splitGroups_bounds f nx parts,
   fun rows => ChunkTable_positional_eq_groups f nx rows,
   fun krows => ChunkTable_keyed_eq_groups f nx krows⟩

/-- Witness for `table_fragment_limits` at limits 30/14. -/
theorem table_fragment_limits_witness :
    (∀ parts : List String,
      (∀ g0, (splitGroups 30 14 parts).head? = some g0 →
        sumLen g0 ≤ 30 ∨ g0 = []) ∧
      (∀ g ∈ (splitGroups 30 14 parts).tail,
        sumLen g ≤ 14 ∨ ∃ p, g = [p])) ∧
    (∀ rows, ChunkTable (.positional rows) 30 14 =
      (splitGroups 30 14 (rows.map posPart)).map
        (fun g => toJSONTable ("[\n" ++ String.join g ++ "]"))) ∧
    (∀ krows, ChunkTable (.keyed krows) 30 14 =
      (splitGroups 30 14 (krows.map keyedPart)).map
        (fun g => toJSONTable ("\x7b\n" ++ String.join g ++ "\x7d"))) :=
  table_fragment_limits 30 14

/-! ### C5: image numbering -/

/-- The registry contents after processing a URL sequence: each URL is
appended on first occurrence and ignored afterwards. -/
def regAfter : List String → List String → List String
  | [], reg => reg
  | u :: rest, reg => regAfter rest (if u ∈ reg then reg else reg ++ [u])

theorem addImageLoop_spec (url : String) :
    ∀ (l : List String) (i : Nat),
      addImageLoop l url i =
        if url ∈ l then some (i + List.indexOf url l + 1) else none := by
  intro l
  induction l with
  | nil => intro i; simp [addImageLoop]
  | cons r rest ih =>
      intro i
      rw [addImageLoop]
      by_cases hr : r = url
      · subst hr
        simp [List.indexOf_cons_self]
      · rw [if_neg hr, ih (i + 1)]
        by_cases hm : url ∈ rest
        · rw [if_pos hm, if_pos (by simp [hm]),
            List.indexOf_cons_ne rest hr]
          congr 1
          omega
        · rw [if_neg hm, if_neg (by simp [hm, Ne.symm hr])]

theorem addImage_mem_spec (reg : List String) (url : String)
    (h : url ∈ reg) :
    addImage reg url = (List.indexOf url reg + 1, reg) := by
  rw [addImage, addImageLoop_spec, if_pos h]
  simp

theorem addImage_not_mem_spec (reg : List String) (url : String)
    (h : url ∉ reg) :
    addImage reg url = (reg.length + 1, reg ++ [url]) := by
  rw [addImage, addImageLoop_spec, if_neg h]

theorem indexOf_append_self_of_not_mem :
    ∀ (reg : List String) (u : String), u ∉ reg →
      List.indexOf u (reg ++ [u]) = reg.length := by
  intro reg
  induction reg with
  | nil => intro u _; simp [List.indexOf_cons_self]
  | cons r rs ih =>
      intro u hu
      have hru : r ≠ u := fun h => hu (by simp [h])
      rw [List.cons_append, List.indexOf_cons_ne _ hru,
        ih u (fun h => hu (by simp [h]))]
      simp

theorem regAfter_extends : ∀ (urls reg : List String),
    ∃ t, regAfter urls reg = reg ++ t := by
  intro urls
  induction urls with
  | nil => intro reg; exact ⟨[], by simp [regAfter]⟩
  | cons u rest ih =>
      intro reg
      rw [regAfter]
      by_cases hm : u ∈ reg
      · rw [if_pos hm]; exact ih reg
      · rw [if_neg hm]
        rcases ih (reg ++ [u]) with ⟨t, ht⟩
        exact ⟨[u] ++ t, by rw [ht, List.append_assoc]⟩

theorem regAfter_nodup : ∀ (urls reg : List String),
    reg.Nodup → (regAfter urls reg).Nodup := by
  intro urls
  induction urls with
  | nil => intro reg h; simpa [regAfter] using h
  | cons u rest ih =>
      intro reg h
      rw [regAfter]
      by_cases hm : u ∈ reg
      · rw [if_pos hm]; exact ih reg h
      · rw [if_neg hm]
        refine ih (reg ++ [u]) ?_
        simp [List.nodup_append, h, hm]

/-- Each occurrence is assigned one plus the index of its URL in the final
registry, and the final registry is the first-occurrence deduplication. -/
theorem processImages_spec : ∀ (urls reg : List String),
    (processImages urls reg).2 = regAfter urls reg ∧
    (processImages urls reg).1 =
      urls.map (fun u => List.indexOf u (processImages urls reg).2 + 1) := by
  intro urls
  induction urls with
  | nil => intro reg; simp [processImages, regAfter]
  | cons u rest ih =>
      intro reg
      rw [processImages]
      by_cases hm : u ∈ reg
      · rw [addImage_mem_spec reg u hm]
        rcases ih reg with ⟨hreg, hrefs⟩
        simp only [hreg, hrefs]
        constructor
        · conv_rhs => rw [regAfter]
          rw [if_pos hm]
        · have hmem1 : u ∈ regAfter rest reg := by
            rcases regAfter_extends rest reg with ⟨t, ht⟩
            rw [ht]
            exact List.mem_append.mpr (Or.inl hm)
          have hstable : List.indexOf u (regAfter rest reg) =
              List.indexOf u reg := by
            rcases regAfter_extends rest reg with ⟨t, ht⟩
            rw [ht, List.indexOf_append_of_mem hm]
          simp [hstable]
      · rw [addImage_not_mem_spec reg u hm]
        rcases ih (reg ++ [u]) with ⟨hreg, hrefs⟩
        simp only [hreg, hrefs]
        constructor
        · conv_rhs => rw [regAfter]
          rw [if_neg hm]
        · have hmem1 : u ∈ reg ++ [u] := by simp
          have hidx1 : List.indexOf u (reg ++ [u]) = reg.length :=
            indexOf_append_self_of_not_mem reg u hm
          have hstable : List.indexOf u (regAfter rest (reg ++ [u])) =
              reg.length := by
            rcases regAfter_extends rest (reg ++ [u]) with ⟨t, ht⟩
            rw [ht, List.indexOf_append_of_mem hmem1, hidx1]
          simp [hstable]

/-- C5: image numbering determinism.  The reference assigned to each image
occurrence is one plus the index of its URL in the final registry — so two
occurrences with the same URL receive the same number, and the Nth distinct
URL (document order of first occurrence, which is exactly the registry
order) receives N.  `addImage` itself returns the existing 1-based position
for a registered URL and appends-and-returns-the-new-length otherwise. -/
theorem image_numbering (urls : List String) :
    (processImages urls []).2 = regAfter urls [] ∧
    (processImages urls []).1 =
      urls.map (fun u => List.indexOf u (processImages urls []).2 + 1) ∧
    (∀ (i j : Nat) (hi : i < urls.length) (hj : j < urls.length),
      urls[i] = urls[j] →
      (processImages urls []).1[i]? = (processImages urls []).1[j]?) ∧
    (∀ (n : Nat) (hn : n < (processImages urls []).2.length),
      List.indexOf ((processImages urls []).2[n]) (processImages urls []).2
        = n) ∧
    (∀ (reg : List String) (url : String), url ∈ reg →
      addImage reg url = (List.indexOf url reg + 1, reg)) ∧
    (∀ (reg : List String) (url : String), url ∉ reg →
      addImage reg url = (reg.length + 1, reg ++ [url])) := by
  rcases processImages_spec urls [] with ⟨hreg, hrefs⟩
  refine ⟨hreg, hrefs, ?_, ?_, addImage_mem_spec, addImage_not_mem_spec⟩
  · intro i j hi hj hij
    rw [hrefs]
    rw [List.getElem?_map, List.getElem?_map]
    rw [List.getElem?_eq_getElem hi, List.getElem?_eq_getElem hj]
    simp [hij]
  · intro n hn
    have hnodup : (processImages urls []).2.Nodup := by
      rw [hreg]
      exact regAfter_nodup urls [] (by simp)
    exact List.indexOf_getElem hnodup n hn

/-- Witness for `image_numbering` on a concrete document with a repeated
URL. -/
theorem image_numbering_witness :
    processImages ["u1", "u2", "u1"] [] = ([1, 2, 1], ["u1", "u2"]) ∧
    ("u1" : String) ∈ (["u1", "u2"] : List String) ∧
    addImage ["u1", "u2"] "u1" = (List.indexOf "u1" ["u1", "u2"] + 1, ["u1", "u2"]) := by
  refine ⟨rfl, by decide, ?_⟩
  exact (image_numbering ["u1", "u2", "u1"]).2.2.2.2.1 ["u1", "u2"] "u1"
    (by decide)

/-! ### C7: keyed vs positional table shape -/

/-- Whether table data has the keyed shape. -/
def isKeyedB : Option TableData → Bool
  | some (.keyed _) => true
  | _ => false

/-- The keyed table shape in the spec's words: "an ordered mapping from each
row's first-cell text to the ordered mapping of its remaining columns" (the
first column deleted from the row mapping; remaining columns assigned in
header order, extra cells ignored by the zip). -/
def specKeyedShape (hs : List String) (rows : List (List String)) :
    List (String × List (String × String)) :=
  rows.map (fun cells => (cells.headD "", hs.zip cells.tail))

theorem omSet_append_of_not_key {α : Type} (m : List (String × α))
    (k : String) (v : α) (h : ∀ q ∈ m, q.1 ≠ k) :
    omSet m k v = m ++ [(k, v)] := by
  have h' : ¬ (m.any (fun p => p.1 = k) = true) := by
    intro hex
    rcases List.any_eq_true.mp hex with ⟨q, hq, hqk⟩
    exact h q hq (by simpa using hqk)
  rw [omSet, if_neg h']

theorem omSet_foldl_eq_append {α : Type} :
    ∀ (ps m : List (String × α)),
      (ps.map Prod.fst).Nodup → (∀ p ∈ ps, ∀ q ∈ m, q.1 ≠ p.1) →
      ps.foldl (fun acc kv => omSet acc kv.1 kv.2) m = m ++ ps := by
  intro ps
  induction ps with
  | nil => intro m _ _; simp
  | cons p rest ih =>
      intro m hnd hdisj
      rw [List.map_cons, List.nodup_cons] at hnd
      obtain ⟨hp_notin, hrest_nd⟩ := hnd
      rw [List.foldl_cons,
        omSet_append_of_not_key m p.1 p.2 (fun q hq => hdisj p (by simp) q hq)]
      rw [ih (m ++ [(p.1, p.2)]) hrest_nd ?_]
      · simp
      · intro r hr q hq
        rcases List.mem_append.mp hq with hq | hq
        · exact hdisj r (by simp [hr]) q hq
        · rcases List.mem_singleton.mp hq with rfl
          show p.1 ≠ r.1
          intro hcontra
          exact hp_notin (by
            rw [hcontra]
            exact List.mem_map.mpr ⟨r, hr, rfl⟩)

theorem zip_keys_sublist {α : Type} :
    ∀ (l1 : List String) (l2 : List α),
      List.Sublist ((List.zip l1 l2).map Prod.fst) l1 := by
  intro l1
  induction l1 with
  | nil => intro l2; simp
  | cons a l1' ih =>
      intro l2
      cases l2 with
      | nil => simp
      | cons b l2' =>
          rw [List.zip_cons_cons, List.map_cons]
          exact List.Sublist.cons₂ a (ih l2')

theorem mem_zip_fst {α : Type} {l1 : List String} {l2 : List α}
    {p : String × α} (h : p ∈ List.zip l1 l2) : p.1 ∈ l1 :=
  (List.of_mem_zip h).1

theorem omDelete_cons_self {α : Type} (m : List (String × α)) (k : String)
    (v : α) : omDelete ((k, v) :: m) k = omDelete m k := by
  rw [omDelete, omDelete, List.filter_cons]
  simp

theorem omDelete_not_mem {α : Type} (hs : List String) (ct : List α)
    (k : String) (hk : k ∉ hs) : omDelete (hs.zip ct) k = hs.zip ct := by
  rw [omDelete]
  apply List.filter_eq_self.mpr
  intro p hp
  have hmem : p.1 ∈ hs := mem_zip_fst hp
  simp only [decide_not, Bool.not_eq_true', decide_eq_false_iff_not,
    decide_eq_true_eq]
  intro hc
  exact hk (by rw [← hc]; exact hmem)

/-- `collectRowCells` with distinct headers is just the header/cell zip. -/
theorem collectRowCells_eq_zip (hs cells : List String) (hnd : hs.Nodup) :
    collectRowCells hs cells = hs.zip cells := by
  rw [collectRowCells]
  have := omSet_foldl_eq_append (α := String) (hs.zip cells) []
    ((zip_keys_sublist hs cells).nodup hnd) (by simp)
  simpa using this

/-- C7: the tree builder produces the keyed shape exactly when the first
header cell text is empty, and under the usual well-formedness conditions
(distinct non-empty remaining headers, distinct non-empty rows with distinct
first cells) the keyed data is precisely the spec's shape: each row's
first-cell text mapped to the header/cell mapping of its remaining columns,
with the first column deleted. -/
theorem table_shape_decision :
    (∀ (h0 : String) (hs : List String) (rows : List (List String)),
      isKeyedB (handleTable (h0 :: hs) rows) = true ↔ h0 = "") ∧
    (∀ (hs : List String) (rows : List (List String)),
      hs.Nodup → "" ∉ hs → (∀ r ∈ rows, r ≠ []) →
      (rows.map (fun c => c.headD "")).Nodup →
      handleTable ("" :: hs) rows = some (.keyed (specKeyedShape hs rows))) := by
  constructor
  · intro h0 hs rows
    by_cases h : h0 = ""
    · subst h
      simp [handleTable, isKeyedB]
    · simp [handleTable, h, isKeyedB]
  · intro hs rows hnd hne hrows hkeys
    rw [handleTable]
    simp only [if_pos rfl]
    congr 1
    congr 1
    have hnd0 : (("" :: hs) : List String).Nodup := by
      rw [List.nodup_cons]
      exact ⟨hne, hnd⟩
    have hrow : ∀ cells ∈ rows, collectRowCellsWithKeys ("" :: hs) cells =
        (cells.headD "", hs.zip cells.tail) := by
      intro cells hc
      rcases cells with _ | ⟨c0, ct⟩
      · exact absurd rfl (hrows [] hc)
      · rw [collectRowCellsWithKeys]
        simp only [List.headD_cons]
        congr 1
        rw [collectRowCells_eq_zip _ _ hnd0, List.zip_cons_cons,
          omDelete_cons_self, omDelete_not_mem hs ct "" hne]
        rfl
    rw [collectTableRowsWithKeys]
    have hfold : rows.foldl (fun td cells =>
        let (key, row) := collectRowCellsWithKeys ("" :: hs) cells
        omSet td key row) [] =
        rows.foldl (fun td cells =>
          omSet td (cells.headD "") (hs.zip cells.tail)) [] := by
      apply List.foldl_ext
      intro td cells hc
      rw [hrow cells hc]
    rw [hfold]
    have hmapfold : rows.foldl (fun td cells =>
        omSet td (cells.headD "") (hs.zip cells.tail)) [] =
        (rows.map (fun c => (c.headD "", hs.zip c.tail))).foldl
          (fun td kv => omSet td kv.1 kv.2) [] := by
      rw [List.foldl_map]
    rw [hmapfold, omSet_foldl_eq_append _ _ ?_ (by simp)]
    · simp [specKeyedShape]
    · rw [List.map_map]
      simpa using hkeys

/-- Witness for `table_shape_decision` on a concrete keyed table. -/
theorem table_shape_decision_witness :
    isKeyedB (handleTable ["", "h1"] [["k", "v"]]) = true ∧
    handleTable ["", "h1"] [["k", "v"]] =
      some (.keyed (specKeyedShape ["h1"] [["k", "v"]])) :=
  ⟨(table_shape_decision.1 "" ["h1"] [["k", "v"]]).mpr rfl,
   table_shape_decision.2 ["h1"] [["k", "v"]] (by decide) (by decide)
     (by intro r hr; rcases List.mem_singleton.mp hr with rfl; decide)
     (by decide)⟩

/-! ### C9: the engine does not mutate the tree -/

theorem JNode.withChildren_getChildren (n : JNode) :
    n.withChildren n.getChildren = n := by
  cases n <;> rfl

theorem chunkFoldTr_nil (L : Int) (acc : List String × String) :
    chunkFoldTr L [] acc = (acc, []) := by
  rw [chunkFoldTr]

/-- One step of the state-threading translation returns the node unchanged
and the chunk state of `chunkStep`, provided the recursive children call
does so (supplied by the enclosing induction on the tree size). -/
theorem chunkStepTr_spec (l : Int) (acc : List String × String) (n : JNode)
    (hwrap : ∀ (l' : Int),
      ChunkJSONMarkdownTr l' n.getChildren =
        (ChunkJSONMarkdown l' n.getChildren, n.getChildren)) :
    chunkStepTr l acc n = (chunkStep l acc n, n) := by
  have h := hwrap
  cases n with
  | text s =>
      rw [chunkStepTr, chunkStep]
      all_goals try (intro data hx; exact JNode.noConfusion hx)
      all_goals try (intro u a r hx; exact JNode.noConfusion hx)
      simp only [JNode.getChildren] at h
      simp only [JNode.getType, String.reduceEq, reduceIte, JNode.getChildren,
        JNode.toMarkdown, h, JNode.withChildren]
  | heading lv t cs =>
      rw [chunkStepTr, chunkStep]
      all_goals try (intro data hx; exact JNode.noConfusion hx)
      all_goals try (intro u a r hx; exact JNode.noConfusion hx)
      simp only [JNode.getChildren] at h
      simp only [JNode.getType, String.reduceEq, reduceIte, JNode.getChildren,
        JNode.toMarkdown, h, JNode.withChildren]
  | table d =>
      rw [chunkStepTr, chunkStep]
      all_goals try (intro data hx; exact JNode.noConfusion hx)
      all_goals try (intro u a r hx; exact JNode.noConfusion hx)
      simp only [JNode.getType, String.reduceEq, reduceIte]
  | link u t =>
      rw [chunkStepTr, chunkStep]
      all_goals try (intro data hx; exact JNode.noConfusion hx)
      all_goals try (intro u a r hx; exact JNode.noConfusion hx)
      simp only [JNode.getChildren] at h
      simp only [JNode.getType, String.reduceEq, reduceIte, JNode.getChildren,
        JNode.toMarkdown, h, JNode.withChildren]
  | image u a r =>
      rw [chunkStepTr, chunkStep]
      all_goals try (intro data hx; exact JNode.noConfusion hx)
      all_goals try (intro u a r hx; exact JNode.noConfusion hx)
      simp only [JNode.getType, String.reduceEq, reduceIte]
  | code c =>
      rw [chunkStepTr, chunkStep]
      all_goals try (intro data hx; exact JNode.noConfusion hx)
      all_goals try (intro u a r hx; exact JNode.noConfusion hx)
      simp only [JNode.getChildren] at h
      simp only [JNode.getType, String.reduceEq, reduceIte, JNode.getChildren,
        JNode.toMarkdown, h, JNode.withChildren]
  | codeBlock lg c =>
      rw [chunkStepTr, chunkStep]
      all_goals try (intro data hx; exact JNode.noConfusion hx)
      all_goals try (intro u a r hx; exact JNode.noConfusion hx)
      simp only [JNode.getChildren] at h
      simp only [JNode.getType, String.reduceEq, reduceIte, JNode.getChildren,
        JNode.toMarkdown, h, JNode.withChildren]
  | paragraph cs =>
      rw [chunkStepTr, chunkStep]
      all_goals try (intro data hx; exact JNode.noConfusion hx)
      all_goals try (intro u a r hx; exact JNode.noConfusion hx)
      simp only [JNode.getChildren] at h
      simp only [JNode.getType, String.reduceEq, reduceIte, JNode.getChildren,
        JNode.toMarkdown, h, JNode.withChildren]
  | base t cs =>
      rw [chunkStepTr, chunkStep]
      all_goals try (intro data hx; exact JNode.noConfusion hx)
      all_goals try (intro u a r hx; exact JNode.noConfusion hx)
      by_cases h1 : t = "table"
      · subst h1
        simp only [JNode.getType, String.reduceEq, reduceIte]
      · by_cases h2 : t = "image"
        · subst h2
          simp only [JNode.getType, String.reduceEq, reduceIte]
        · simp only [JNode.getChildren] at h
          simp only [JNode.getType, if_neg h1, if_neg h2, JNode.getChildren,
            JNode.toMarkdown, h, JNode.withChildren]

/-- C9: the chunking engine leaves the input tree unchanged.  In the
state-threading translation (`ChunkJSONMarkdownTr`), which returns the node
sequence a Go caller would observe after the call, the returned sequence is
the input sequence and the chunks are those of `ChunkJSONMarkdown` — the
engine only reads and recurses, it performs no write to any node. -/
theorem engine_preserves_tree (L : Int) (ns : List JNode) :
    (ChunkJSONMarkdownTr L ns).2 = ns ∧
    (ChunkJSONMarkdownTr L ns).1 = ChunkJSONMarkdown L ns := by
  have main : ∀ (k : Nat), ∀ (ms : List JNode), sizeOf ms ≤ k →
      ∀ (l : Int) (acc : List String × String),
        chunkFoldTr l ms acc = (chunkFold l ms acc, ms) := by
    intro k
    induction k using Nat.strong_induction_on with
    | _ k ih =>
        intro ms hms l acc
        cases ms with
        | nil => rw [chunkFoldTr, chunkFold_nil]
        | cons n rest =>
            have hsz_n : sizeOf n < sizeOf (n :: rest) := by
              simp +arith
            have hsz_rest : sizeOf rest < sizeOf (n :: rest) := by
              simp +arith
            have hwrap : ∀ (l' : Int),
                ChunkJSONMarkdownTr l' n.getChildren =
                  (ChunkJSONMarkdown l' n.getChildren, n.getChildren) := by
              intro l'
              have hcs := JNode.sizeOf_getChildren_lt n
              have hk : sizeOf n.getChildren < k := by omega
              have hfold := ih (sizeOf n.getChildren) hk n.getChildren
                (le_refl _) l' ([], "")
              rw [ChunkJSONMarkdownTr, ChunkJSONMarkdown, hfold]
            have hstep := chunkStepTr_spec l acc n hwrap
            rw [chunkFoldTr, hstep]
            have hrest := ih (sizeOf rest) (by omega) rest (le_refl _) l
              (chunkStep l acc n)
            dsimp only
            rw [hrest, chunkFold_cons]
  have hfold := main (sizeOf ns) ns (le_refl _) L ([], "")
  rw [ChunkJSONMarkdownTr, ChunkJSONMarkdown, hfold]
  exact ⟨rfl, rfl⟩

end MDTools
